import Mathlib

/-!
Verification development for the hypergraph GPU label-propagation repository.

The definitions below are a shallow embedding of the C++ sources:
* `Hypergraph`, `add_hyperedge`, `set_labels`, `flatten`, `freeze`
  from `src/common/hypergraph.cpp` and `include/hypergraph.hpp`;
* the per-entity histogram/argmax kernel (`tally`, `bestLabel`,
  `updateLabel`) and the two-phase iteration (`iterOnce`) from
  `src/openmp/label_propagation_openmp.cpp` (the SYCL and Kokkos
  kernels implement the same per-entity computation);
* the iteration driver (`driverGo`, `runLP`) from
  `LabelPropagationOpenMP::run`;
* the execution-pool planners from the SYCL and OpenMP backends;
* the binary serializer (`save_to_bytes`, `load_from_binary_stream`)
  from `Hypergraph::save_to_file` and `utils::load_from_binary_stream`.

Machine integers are modelled as `Nat`/`Int` (sizes fit `size_t`;
labels are C `int`, i.e. 32-bit signed).  The float histogram counts
are modelled as exact naturals: every addition is `+1.0f`, so the
float arithmetic is exact for the entity sizes the program handles.
The convergence ratio `double(changes)/double(N)` is modelled as the
exact rational `changes / N`.
-/

deriving instance DecidableEq for Except

namespace HGLP

/-- The hypergraph store of `include/hypergraph.hpp`: `num_vertices_`,
`hyperedges_` (each edge a vertex-id list in insertion order) and
`labels_`.  `incident_edges_`, `degrees_` and `edge_sizes_` are
maintained incrementally by `add_hyperedge` and are derived data; they
are modelled by the functions `incident_edges`, `degreeOf`,
`edge_sizes` below. -/
structure Hypergraph where
  num_vertices : Nat
  hyperedges : List (List Nat)
  labels : List Int
deriving Repr, DecidableEq

/-- `Hypergraph::Hypergraph(num_vertices)`: no edges, labels all 0. -/
def Hypergraph.init (n : Nat) : Hypergraph :=
  { num_vertices := n, hyperedges := [], labels := List.replicate n 0 }

/-- `Hypergraph::get_num_edges`. -/
def Hypergraph.num_edges (hg : Hypergraph) : Nat := hg.hyperedges.length

/-- `Hypergraph::get_hyperedge` (total version; claims only use it in range). -/
def Hypergraph.hyperedge (hg : Hypergraph) (e : Nat) : List Nat :=
  hg.hyperedges.getD e []

/-- `incident_edges_[v]` as maintained by `add_hyperedge`: for every edge
`e` in insertion order, `e` is appended once per occurrence of `v` in the
edge's vertex list. -/
def Hypergraph.incident_edges (hg : Hypergraph) (v : Nat) : List Nat :=
  (List.range hg.hyperedges.length).flatMap
    (fun e => List.replicate ((hg.hyperedge e).count v) e)

/-- `degrees_[v]`, incremented once per occurrence pushed into
`incident_edges_[v]`. -/
def Hypergraph.degreeOf (hg : Hypergraph) (v : Nat) : Nat :=
  (hg.incident_edges v).length

/-- `Hypergraph::add_hyperedge`: rejects an empty vertex list, then any
vertex id `>= num_vertices_`; otherwise appends the edge.  The C++ has
no duplicate-vertex check. -/
def add_hyperedge (hg : Hypergraph) (vs : List Nat) : Except String Hypergraph :=
  if vs.isEmpty then .error "Hyperedge cannot be empty"
  else if vs.all (fun v => v < hg.num_vertices) then
    .ok { hg with hyperedges := hg.hyperedges ++ [vs] }
  else .error "Vertex ID out of range"

/-- `Hypergraph::set_labels`: size must match `num_vertices_`. -/
def set_labels (hg : Hypergraph) (ls : List Int) : Except String Hypergraph :=
  if ls.length = hg.num_vertices then .ok { hg with labels := ls }
  else .error "Labels size must match number of vertices"

/-! ### Flat (CSR) view, `Hypergraph::flatten` -/

/-- `Hypergraph::FlatHypergraph`. -/
structure FlatHypergraph where
  edge_vertices : List Nat
  edge_offsets : List Nat
  vertex_edges : List Nat
  vertex_offsets : List Nat
  edge_sizes : List Nat
  num_vertices : Nat
  num_edges : Nat
deriving Repr, DecidableEq

/-- The offsets array built by `flatten`'s loops: starts at 0, then after
each entity appends the cumulative element count. -/
def csrOffsets (ls : List (List Nat)) : List Nat :=
  (ls.map List.length).scanl (· + ·) 0

/-- `Hypergraph::flatten` (cache-less body): concatenates hyperedges in
edge order and incidence lists in vertex order, with offset arrays. -/
def Hypergraph.flatten (hg : Hypergraph) : FlatHypergraph :=
  { edge_vertices := hg.hyperedges.flatten
    edge_offsets := csrOffsets hg.hyperedges
    vertex_edges := ((List.range hg.num_vertices).map hg.incident_edges).flatten
    vertex_offsets := csrOffsets ((List.range hg.num_vertices).map hg.incident_edges)
    edge_sizes := hg.hyperedges.map List.length
    num_vertices := hg.num_vertices
    num_edges := hg.hyperedges.length }

/-- The kernels read entity `i`'s neighbours as
`data[offsets[i] .. offsets[i+1])`. -/
def csrSlice (data offsets : List Nat) (i : Nat) : List Nat :=
  (data.drop (offsets.getD i 0)).take (offsets.getD (i + 1) 0 - offsets.getD i 0)

theorem scanl_add_getD (ms : List Nat) (a i : Nat) (hi : i ≤ ms.length) :
    (ms.scanl (· + ·) a).getD i 0 = a + (ms.take i).sum := by
  induction ms generalizing a i with
  | nil =>
    have : i = 0 := Nat.le_zero.mp hi
    subst this; simp [List.scanl]
  | cons m ms ih =>
    cases i with
    | zero => simp [List.scanl]
    | succ j =>
      have := ih (a + m) j (by simpa using hi)
      simpa [List.scanl, this, Nat.add_assoc] using this

theorem getD_csrOffsets (ls : List (List Nat)) (i : Nat) (hi : i ≤ ls.length) :
    (csrOffsets ls).getD i 0 = ((ls.map List.length).take i).sum := by
  simpa [csrOffsets] using scanl_add_getD (ls.map List.length) 0 i (by simpa using hi)

theorem flatten_drop_sum (ls : List (List Nat)) (i : Nat) :
    ls.flatten.drop (((ls.map List.length).take i).sum) = (ls.drop i).flatten := by
  induction ls generalizing i with
  | nil => simp
  | cons l ls ih =>
    cases i with
    | zero => simp
    | succ j =>
      simp only [List.map_cons, List.take_succ_cons, List.sum_cons,
        List.flatten_cons, List.drop_succ_cons]
      rw [List.drop_append, ih]

/-- The CSR slice of entity `i` is exactly its original list. -/
theorem csrSlice_flatten (ls : List (List Nat)) (i : Nat) (hi : i < ls.length) :
    csrSlice ls.flatten (csrOffsets ls) i = ls.getD i [] := by
  unfold csrSlice
  rw [getD_csrOffsets ls i hi.le, getD_csrOffsets ls (i + 1) hi,
    flatten_drop_sum]
  have hlen : i < (ls.map List.length).length := by simpa using hi
  have hsum : ((ls.map List.length).take (i + 1)).sum
      = ((ls.map List.length).take i).sum + (ls.getD i []).length := by
    rw [List.sum_take_succ _ _ hlen]
    simp [List.getD, List.getElem?_eq_getElem hi]
  rw [hsum, Nat.add_sub_cancel_left]
  have hdrop : ls.drop i = ls.getD i [] :: ls.drop (i + 1) := by
    rw [List.getD_eq_getElem _ _ hi, List.drop_eq_getElem_cons hi]
  rw [hdrop]
  simp

/-! ### Per-entity histogram and argmax

Every backend kernel computes, for one entity, a histogram of the
observed labels over `[0, max_labels)` (out-of-range labels skipped)
and then scans `label = 0 .. max_labels-1` with
`best = incumbent; best_w = -1.0f; if (w > best_w) ...` (strict `>`).
-/

/-- The histogram entry `counts[lab]` after the tally loop:
each observed label `l` with `0 ≤ l < max_labels` contributes `+1`
to `counts[l]`. -/
def tally (obs : List Int) (maxL : Nat) (lab : Nat) : Nat :=
  obs.countP (fun l => decide (0 ≤ l) && decide (l < (maxL : Int)) && (l == (lab : Int)))

/-- The argmax scan: seeded with the incumbent label at weight `-1`,
left-to-right over `[0, max_labels)`, strict `>`. -/
def bestLabel (w : Nat → Nat) (maxL : Nat) (inc : Int) : Int :=
  ((List.range maxL).foldl
    (fun acc lab => if ((w lab : Int)) > acc.2 then ((lab : Int), (w lab : Int)) else acc)
    (inc, (-1 : Int))).1

/-- One entity's label update: tally the observed labels, then argmax. -/
def updateLabel (obs : List Int) (maxL : Nat) (inc : Int) : Int :=
  bestLabel (tally obs maxL) maxL inc

/-- `b` is the left-to-right argmax of `w` over `[0, maxL)` under
strict `>`: the smallest index attaining the maximum. -/
def IsLeastArgmax (w : Nat → Nat) (maxL b : Nat) : Prop :=
  b < maxL ∧ (∀ j < maxL, w j ≤ w b) ∧ ∀ j < b, w j < w b

theorem isLeastArgmax_unique {w : Nat → Nat} {maxL b₁ b₂ : Nat}
    (h₁ : IsLeastArgmax w maxL b₁) (h₂ : IsLeastArgmax w maxL b₂) : b₁ = b₂ := by
  rcases h₁ with ⟨hb₁, hmax₁, hlt₁⟩
  rcases h₂ with ⟨hb₂, hmax₂, hlt₂⟩
  rcases Nat.lt_trichotomy b₁ b₂ with h | h | h
  · exact absurd (hmax₁ b₂ hb₂) (Nat.not_le.mpr (hlt₂ b₁ h))
  · exact h
  · exact absurd (hmax₂ b₁ hb₁) (Nat.not_le.mpr (hlt₁ b₂ h))

theorem foldl_argmax_spec (w : Nat → Nat) (inc : Int) (n : Nat) (hn : 1 ≤ n) :
    ∃ b : Nat, IsLeastArgmax w n b ∧
      (List.range n).foldl
        (fun acc lab => if ((w lab : Int)) > acc.2 then ((lab : Int), (w lab : Int)) else acc)
        (inc, (-1 : Int)) = ((b : Int), ((w b : Nat) : Int)) := by
  induction n, hn using Nat.le_induction with
  | base =>
    refine ⟨0, ⟨Nat.one_pos, ?_, ?_⟩, ?_⟩
    · intro j hj; interval_cases j; exact le_refl _
    · intro j hj; omega
    · have : ((w 0 : Nat) : Int) > -1 := by
        have := Int.natCast_nonneg (w 0); omega
      simp [List.range_succ, this]
  | succ n hn ih =>
    obtain ⟨b, ⟨hb, hmax, hlt⟩, hfold⟩ := ih
    rw [List.range_succ, List.foldl_append, hfold]
    by_cases hw : ((w n : Nat) : Int) > ((w b : Nat) : Int)
    · have hwn : w b < w n := by exact_mod_cast hw
      refine ⟨n, ⟨Nat.lt_succ_self n, ?_, ?_⟩, by simp [hw]⟩
      · intro j hj
        rcases Nat.lt_succ_iff_lt_or_eq.mp hj with hj' | hj'
        · exact le_trans (hmax j hj') hwn.le
        · subst hj'; exact le_refl _
      · intro j hj; exact Nat.lt_of_le_of_lt (hmax j hj) hwn
    · have hwn : w n ≤ w b := by
        have := not_lt.mp hw
        exact_mod_cast this
      refine ⟨b, ⟨Nat.lt_succ_of_lt hb, ?_, hlt⟩, by simp [hw]⟩
      intro j hj
      rcases Nat.lt_succ_iff_lt_or_eq.mp hj with hj' | hj'
      · exact hmax j hj'
      · subst hj'; exact hwn

/-- The seeded argmax scan returns the least maximising index,
independently of the incumbent seed (`0 ≥ counts[0] > -1` always fires
at label 0). -/
theorem bestLabel_spec (w : Nat → Nat) (maxL : Nat) (inc : Int) (h : 1 ≤ maxL) :
    ∃ b : Nat, IsLeastArgmax w maxL b ∧ bestLabel w maxL inc = (b : Int) := by
  obtain ⟨b, hb, hfold⟩ := foldl_argmax_spec w inc maxL h
  exact ⟨b, hb, by simp [bestLabel, hfold]⟩

theorem bestLabel_eq_of_isLeastArgmax {w : Nat → Nat} {maxL b : Nat} (inc : Int)
    (h : 1 ≤ maxL) (hb : IsLeastArgmax w maxL b) : bestLabel w maxL inc = (b : Int) := by
  obtain ⟨b', hb', heq⟩ := bestLabel_spec w maxL inc h
  rw [heq]
  exact_mod_cast isLeastArgmax_unique hb' hb

/-! ### One synchronous iteration (Phase 1 then Phase 2)

The pools of one phase partition the entity-id space and each entity is
written exactly once from the phase's read-only inputs, so the
sequential meaning of a phase is a pointwise map over all entities.
-/

/-- Phase 1 for one edge: tally `vertex_labels` over the edge's CSR
slice, argmax seeded with the incumbent `edge_labels[e]`. -/
def phase1edge (flat : FlatHypergraph) (vl el : List Int) (maxL e : Nat) : Int :=
  updateLabel ((csrSlice flat.edge_vertices flat.edge_offsets e).map (fun v => vl.getD v 0))
    maxL (el.getD e 0)

/-- Phase 2 for one vertex: tally `edge_labels` over the vertex's
incident-edge CSR slice, argmax seeded with the incumbent
`vertex_labels[v]`. -/
def phase2vertex (flat : FlatHypergraph) (el vl : List Int) (maxL v : Nat) : Int :=
  updateLabel ((csrSlice flat.vertex_edges flat.vertex_offsets v).map (fun ed => el.getD ed 0))
    maxL (vl.getD v 0)

structure IterResult where
  edge_labels : List Int
  vertex_labels : List Int
  changes : Nat
deriving Repr, DecidableEq

/-- One full iteration: Phase 1 rewrites every edge label from the
current vertex labels, then Phase 2 rewrites every vertex label from
the new edge labels, counting the vertices whose label changed. -/
def iterOnce (hg : Hypergraph) (maxL : Nat) (vl el : List Int) : IterResult :=
  let flat := hg.flatten
  let el' := (List.range flat.num_edges).map (fun e => phase1edge flat vl el maxL e)
  { edge_labels := el'
    vertex_labels := (List.range flat.num_vertices).map
      (fun v => phase2vertex flat el' vl maxL v)
    changes := (List.range flat.num_vertices).countP
      (fun v => phase2vertex flat el' vl maxL v != vl.getD v 0) }

/-- The label state carried between iterations: `(vertex_labels, edge_labels)`. -/
def stepState (hg : Hypergraph) (maxL : Nat) (st : List Int × List Int) :
    List Int × List Int :=
  let res := iterOnce hg maxL st.1 st.2
  (res.vertex_labels, res.edge_labels)

/-- State after `k` iterations. -/
def stateAt (hg : Hypergraph) (maxL : Nat) (st0 : List Int × List Int) : Nat → List Int × List Int
  | 0 => st0
  | k + 1 => stepState hg maxL (stateAt hg maxL st0 k)

/-- The convergence test evaluated on one iteration starting from `st`:
`change_ratio < tolerance`, with the `double` ratio modelled exactly. -/
def Converges (hg : Hypergraph) (maxL : Nat) (tol : ℚ) (st : List Int × List Int) : Prop :=
  ((iterOnce hg maxL st.1 st.2).changes : ℚ) / (hg.num_vertices : ℚ) < tol

instance (hg : Hypergraph) (maxL : Nat) (tol : ℚ) (st : List Int × List Int) :
    Decidable (Converges hg maxL tol st) := by
  unfold Converges; infer_instance

/-- The iteration loop of `LabelPropagationOpenMP::run`: `remaining`
loop iterations left, `executed` iterations already performed.  On the
break (`change_ratio < tolerance`) it returns `iteration + 1`; on
exhaustion `iterations_completed = max_iterations` (the accumulated
`executed`). -/
def driverGo (hg : Hypergraph) (maxL : Nat) (tol : ℚ) :
    Nat → List Int × List Int → Nat → (List Int × List Int) × Nat
  | 0, st, executed => (st, executed)
  | r + 1, st, executed =>
    if Converges hg maxL tol st then (stepState hg maxL st, executed + 1)
    else driverGo hg maxL tol r (stepState hg maxL st) (executed + 1)

/-- `LabelPropagationOpenMP::run`: an empty hypergraph returns at once
with 0 iterations; otherwise vertex labels start from the store's
labels, edge labels start at 0, and the loop runs at most
`max_iterations` times. -/
def runLP (hg : Hypergraph) (maxL : Nat) (tol : ℚ) (maxIter : Nat) :
    (List Int × List Int) × Nat :=
  if hg.num_vertices = 0 ∨ hg.num_edges = 0 then
    ((hg.labels, List.replicate hg.num_edges 0), 0)
  else
    driverGo hg maxL tol maxIter (hg.labels, List.replicate hg.num_edges 0) 0

theorem stateAt_shift (hg : Hypergraph) (maxL : Nat) (st : List Int × List Int) (k : Nat) :
    stateAt hg maxL (stepState hg maxL st) k = stateAt hg maxL st (k + 1) := by
  induction k with
  | zero => rfl
  | succ j ih => simp [stateAt, ih]

theorem driverGo_converged (hg : Hypergraph) (maxL : Nat) (tol : ℚ) :
    ∀ (r : Nat) (st : List Int × List Int) (ex k : Nat), k < r →
      Converges hg maxL tol (stateAt hg maxL st k) →
      (∀ j < k, ¬ Converges hg maxL tol (stateAt hg maxL st j)) →
      driverGo hg maxL tol r st ex = (stateAt hg maxL st (k + 1), ex + (k + 1)) := by
  intro r
  induction r with
  | zero => intro st ex k hk _ _; exact absurd hk (Nat.not_lt_zero k)
  | succ r ih =>
    intro st ex k hk hconv hleast
    cases k with
    | zero =>
      simp only [stateAt] at hconv
      simp [driverGo, hconv, stateAt]
    | succ j =>
      have h0 : ¬ Converges hg maxL tol (stateAt hg maxL st 0) :=
        hleast 0 (Nat.succ_pos j)
      simp only [stateAt] at h0
      have := ih (stepState hg maxL st) (ex + 1) j (by omega)
        (by rw [stateAt_shift]; exact hconv)
        (by intro i hi; rw [stateAt_shift]; exact hleast (i + 1) (by omega))
      simp only [driverGo, if_neg h0]
      rw [this, stateAt_shift]
      refine Prod.ext rfl ?_
      simp; omega

theorem driverGo_exhausted (hg : Hypergraph) (maxL : Nat) (tol : ℚ) :
    ∀ (r : Nat) (st : List Int × List Int) (ex : Nat),
      (∀ j < r, ¬ Converges hg maxL tol (stateAt hg maxL st j)) →
      driverGo hg maxL tol r st ex = (stateAt hg maxL st r, ex + r) := by
  intro r
  induction r with
  | zero => intro st ex _; simp [driverGo, stateAt]
  | succ r ih =>
    intro st ex hnone
    have h0 : ¬ Converges hg maxL tol (stateAt hg maxL st 0) := hnone 0 (Nat.succ_pos r)
    simp only [stateAt] at h0
    have := ih (stepState hg maxL st) (ex + 1)
      (by intro i hi; rw [stateAt_shift]; exact hnone (i + 1) (by omega))
    simp only [driverGo, if_neg h0]
    rw [this, stateAt_shift]
    refine Prod.ext rfl ?_
    simp; omega

/-! ### Execution-pool planners -/

/-- `LabelPropagationSYCL::create_execution_pool`: three tiers per
entity kind; edges split at sizes 256 and 32, vertices at incident
degrees 1024 and 256, scanned in id order. -/
structure ExecutionPoolSYCL where
  wg_pool_edges : List Nat
  sg_pool_edges : List Nat
  wi_pool_edges : List Nat
  wg_pool_vertices : List Nat
  sg_pool_vertices : List Nat
  wi_pool_vertices : List Nat
deriving Repr, DecidableEq

def create_execution_pool_sycl (hg : Hypergraph) : ExecutionPoolSYCL :=
  { wg_pool_edges := (List.range hg.num_edges).filter
      (fun e => 256 < (hg.hyperedge e).length)
    sg_pool_edges := (List.range hg.num_edges).filter
      (fun e => ¬ 256 < (hg.hyperedge e).length ∧ 32 < (hg.hyperedge e).length)
    wi_pool_edges := (List.range hg.num_edges).filter
      (fun e => ¬ 256 < (hg.hyperedge e).length ∧ ¬ 32 < (hg.hyperedge e).length)
    wg_pool_vertices := (List.range hg.num_vertices).filter
      (fun v => 1024 < (hg.incident_edges v).length)
    sg_pool_vertices := (List.range hg.num_vertices).filter
      (fun v => ¬ 1024 < (hg.incident_edges v).length ∧ 256 < (hg.incident_edges v).length)
    wi_pool_vertices := (List.range hg.num_vertices).filter
      (fun v => ¬ 1024 < (hg.incident_edges v).length ∧ ¬ 256 < (hg.incident_edges v).length) }

/-- The OpenMP backend's anonymous-namespace `create_execution_pool`:
only TWO tiers per entity kind (no sub-group pool); edges split at
size 256 only, vertices at degree 1024 only. -/
structure ExecutionPoolOpenMP where
  wg_pool_edges : List Nat
  wi_pool_edges : List Nat
  wg_pool_vertices : List Nat
  wi_pool_vertices : List Nat
deriving Repr, DecidableEq

def create_execution_pool_openmp (hg : Hypergraph) : ExecutionPoolOpenMP :=
  { wg_pool_edges := (List.range hg.num_edges).filter
      (fun e => 256 < (hg.hyperedge e).length)
    wi_pool_edges := (List.range hg.num_edges).filter
      (fun e => ¬ 256 < (hg.hyperedge e).length)
    wg_pool_vertices := (List.range hg.num_vertices).filter
      (fun v => 1024 < (hg.incident_edges v).length)
    wi_pool_vertices := (List.range hg.num_vertices).filter
      (fun v => ¬ 1024 < (hg.incident_edges v).length) }

/-! ### Freeze and the mutable store

`Hypergraph::freeze` stores `flatten()`'s result in `flat_cache_`;
`flatten` returns the cache when present.  No method consults a
"frozen" flag: `add_hyperedge` mutates the store regardless. -/

/-- The store with its optional cached flat view (`flat_cache_`). -/
structure HypergraphStore where
  core : Hypergraph
  flat_cache : Option FlatHypergraph
deriving Repr, DecidableEq

/-- A store as constructed (no cache yet). -/
def HypergraphStore.ofCore (hg : Hypergraph) : HypergraphStore :=
  { core := hg, flat_cache := none }

/-- `Hypergraph::flatten` including the cache check. -/
def HypergraphStore.flatten_m (s : HypergraphStore) : FlatHypergraph :=
  match s.flat_cache with
  | some f => f
  | none => s.core.flatten

/-- `Hypergraph::freeze`: build (or fetch) the flat view and cache it. -/
def freeze (s : HypergraphStore) : HypergraphStore :=
  { s with flat_cache := some s.flatten_m }

/-- `add_hyperedge` on the store: the member function has no frozen
check, so it runs identically whether or not `flat_cache_` is set (and
never touches the cache). -/
def add_hyperedge_s (s : HypergraphStore) (vs : List Nat) : Except String HypergraphStore :=
  (add_hyperedge s.core vs).map (fun c => { s with core := c })

/-! ### Binary serialization

`Hypergraph::save_to_file` / `utils::load_from_binary_stream`.  A file
is a byte sequence (each byte `< 256`); fixed-width integers are
little-endian.  A C++ `is.read` that runs past the end of the stream
sets the fail bit, modelled by `Option`-returning readers.
-/

/-- `k` little-endian bytes of `x` (the byte image of a `k`-byte
unsigned integer). -/
def natLE : Nat → Nat → List Nat
  | 0, _ => []
  | k + 1, x => x % 256 :: natLE k (x / 256)

def u32le (x : Nat) : List Nat := natLE 4 x

def u64le (x : Nat) : List Nat := natLE 8 x

/-- `int32` bytes: two's complement, little-endian. -/
def i32le (x : Int) : List Nat := natLE 4 (x % 2 ^ 32).toNat

/-- Little-endian byte decoding. -/
def decodeLE (bs : List Nat) : Nat := bs.foldr (fun b acc => b + 256 * acc) 0

/-- Reinterpret a `uint32` bit pattern as `int32`. -/
def toI32 (n : Nat) : Int := if n < 2 ^ 31 then (n : Int) else (n : Int) - 2 ^ 32

/-- The magic constant `utils::HGR_ASCII` (`'HGR1'`). -/
def HGR_ASCII : Nat := 0x31475248

def readBytes (n : Nat) (s : List Nat) : Option (List Nat × List Nat) :=
  if n ≤ s.length then some (s.take n, s.drop n) else none

def readU32 (s : List Nat) : Option (Nat × List Nat) :=
  (readBytes 4 s).map (fun p => (decodeLE p.1, p.2))

def readU64 (s : List Nat) : Option (Nat × List Nat) :=
  (readBytes 8 s).map (fun p => (decodeLE p.1, p.2))

def readU8 (s : List Nat) : Option (Nat × List Nat) :=
  (readBytes 1 s).map (fun p => (decodeLE p.1, p.2))

def readI32 (s : List Nat) : Option (Int × List Nat) :=
  (readBytes 4 s).map (fun p => (toI32 (decodeLE p.1), p.2))

/-- The inner vertex loop of the edge reader. -/
def readVerts : Nat → List Nat → Option (List Nat × List Nat)
  | 0, s => some ([], s)
  | n + 1, s =>
    match readU64 s with
    | none => none
    | some (v, s1) =>
      match readVerts n s1 with
      | none => none
      | some (vs, s2) => some (v :: vs, s2)

/-- The label loop: `num_vertices` consecutive `int32`s. -/
def readLabels : Nat → List Nat → Option (List Int × List Nat)
  | 0, s => some ([], s)
  | n + 1, s =>
    match readI32 s with
    | none => none
    | some (l, s1) =>
      match readLabels n s1 with
      | none => none
      | some (ls, s2) => some (l :: ls, s2)

/-- The edge loop of `load_from_binary_stream`: reads `ne` records of
`u64 size` + `size × u64 vertex`, feeding each through
`add_hyperedge`'s checks (`sz == 0` is `bad edge size`; a failed vertex
read is `truncated vertices`; an id `≥ nv` is `add_hyperedge`'s
`Vertex ID out of range`). -/
def readEdges (nv : Nat) : Nat → List Nat → Except String (List (List Nat) × List Nat)
  | 0, s => .ok ([], s)
  | n + 1, s =>
    match readU64 s with
    | none => .error "Invalid hypergraph file (bad edge size)"
    | some (sz, s1) =>
      if sz = 0 then .error "Invalid hypergraph file (bad edge size)"
      else
        match readVerts sz s1 with
        | none => .error "Invalid hypergraph file (truncated vertices)"
        | some (vs, s2) =>
          if vs.all (fun v => v < nv) then
            match readEdges nv n s2 with
            | .ok (es, s3) => .ok (vs :: es, s3)
            | .error m => .error m
          else .error "Vertex ID out of range"

/-- `Hypergraph::save_to_file` as a byte sequence: magic, version 1,
`u64 N`, `u64 M`, the edge records, `has_labels = 1`, and `N` `int32`
labels. -/
def save_to_bytes (hg : Hypergraph) : List Nat :=
  u32le HGR_ASCII ++ (u32le 1 ++ (u64le hg.num_vertices ++ (u64le hg.num_edges
    ++ (hg.hyperedges.flatMap (fun e => u64le e.length ++ e.flatMap u64le)
    ++ ((1 : Nat) :: hg.labels.flatMap i32le)))))

/-- `utils::load_from_binary_stream`.  Magic/version are checked
together with the success of both reads; `nv == 0` or a failed header
read is `bad header`; after the edges, a FAILED read of the
`has_labels` byte is tolerated (labels stay default-0, the
forward-compatibility branch), while a present flag `≠ 0` demands `nv`
labels. -/
def load_from_binary_stream (file : List Nat) : Except String Hypergraph :=
  match readU32 file with
  | none => .error "Invalid hypergraph file (bad magic/version)"
  | some (magic, s1) =>
    match readU32 s1 with
    | none => .error "Invalid hypergraph file (bad magic/version)"
    | some (version, s2) =>
      if magic ≠ HGR_ASCII ∨ version ≠ 1 then
        .error "Invalid hypergraph file (bad magic/version)"
      else
        match readU64 s2 with
        | none => .error "Invalid hypergraph file (bad header)"
        | some (nv, s3) =>
          match readU64 s3 with
          | none => .error "Invalid hypergraph file (bad header)"
          | some (ne, s4) =>
            if nv = 0 then .error "Invalid hypergraph file (bad header)"
            else
              match readEdges nv ne s4 with
              | .error m => .error m
              | .ok (es, s5) =>
                match readU8 s5 with
                | none => .ok { num_vertices := nv, hyperedges := es,
                                labels := List.replicate nv 0 }
                | some (has_labels, s6) =>
                  if has_labels ≠ 0 then
                    match readLabels nv s6 with
                    | none => .error "Invalid hypergraph file (truncated labels)"
                    | some (ls, _) => .ok { num_vertices := nv, hyperedges := es, labels := ls }
                  else .ok { num_vertices := nv, hyperedges := es,
                             labels := List.replicate nv 0 }

/-- The store states reachable through the builder or any generator:
`N ≥ 1` (generators require it; load rejects `nv == 0`), edges
non-empty with in-range ids (`add_hyperedge`'s checks), label vector of
length `N` (constructor/`set_labels`), and the machine-width bounds of
`size_t` and `int`. -/
def ValidHG (hg : Hypergraph) : Prop :=
  1 ≤ hg.num_vertices ∧ hg.num_vertices < 2 ^ 64 ∧ hg.hyperedges.length < 2 ^ 64 ∧
  (∀ e ∈ hg.hyperedges, e ≠ [] ∧ e.length < 2 ^ 64 ∧ ∀ v ∈ e, v < hg.num_vertices) ∧
  hg.labels.length = hg.num_vertices ∧ ∀ l ∈ hg.labels, -2 ^ 31 ≤ l ∧ l < 2 ^ 31

instance (hg : Hypergraph) : Decidable (ValidHG hg) := by
  unfold ValidHG; infer_instance

theorem natLE_length (k x : Nat) : (natLE k x).length = k := by
  induction k generalizing x with
  | zero => rfl
  | succ j ih => simp [natLE, ih]

theorem decodeLE_natLE (k x : Nat) (h : x < 256 ^ k) : decodeLE (natLE k x) = x := by
  induction k generalizing x with
  | zero => simp [natLE, decodeLE]; omega
  | succ j ih =>
    have hdiv : x / 256 < 256 ^ j := by
      rw [Nat.div_lt_iff_lt_mul (by norm_num)]
      calc x < 256 ^ (j + 1) := h
        _ = 256 ^ j * 256 := by ring
    have : decodeLE (natLE j (x / 256)) = x / 256 := ih _ hdiv
    simp [natLE, decodeLE] at this ⊢
    rw [this]
    omega

theorem readBytes_append (a t : List Nat) :
    readBytes a.length (a ++ t) = some (a, t) := by
  unfold readBytes
  rw [if_pos (by simp)]
  simp

theorem readBytes_short (n : Nat) (s : List Nat) (h : s.length < n) :
    readBytes n s = none := by
  unfold readBytes; rw [if_neg (by omega)]

theorem readU32_append (x : Nat) (t : List Nat) (h : x < 2 ^ 32) :
    readU32 (u32le x ++ t) = some (x, t) := by
  have hl : (u32le x).length = 4 := natLE_length 4 x
  unfold readU32
  rw [show (4 : Nat) = (u32le x).length from hl.symm, readBytes_append]
  simp [decodeLE_natLE 4 x (by norm_num at h ⊢; omega), u32le]

theorem readU64_append (x : Nat) (t : List Nat) (h : x < 2 ^ 64) :
    readU64 (u64le x ++ t) = some (x, t) := by
  have hl : (u64le x).length = 8 := natLE_length 8 x
  unfold readU64
  rw [show (8 : Nat) = (u64le x).length from hl.symm, readBytes_append]
  simp [decodeLE_natLE 8 x (by norm_num at h ⊢; omega), u64le]

theorem readU8_one (t : List Nat) : readU8 (1 :: t) = some (1, t) := by
  simp [readU8, readBytes, decodeLE]

theorem readI32_append (x : Int) (t : List Nat) (h1 : -2 ^ 31 ≤ x) (h2 : x < 2 ^ 31) :
    readI32 (i32le x ++ t) = some (x, t) := by
  have hl : (i32le x).length = 4 := natLE_length 4 _
  have hmod : (x % 2 ^ 32).toNat < 256 ^ 4 := by
    have := Int.emod_nonneg x (show (2 : Int) ^ 32 ≠ 0 by norm_num)
    have := Int.emod_lt_of_pos x (show (0 : Int) < 2 ^ 32 by norm_num)
    norm_num at this ⊢
    omega
  unfold readI32
  rw [show (4 : Nat) = (i32le x).length from hl.symm, readBytes_append]
  have hdec : decodeLE (i32le x) = (x % 2 ^ 32).toNat := decodeLE_natLE 4 _ hmod
  have hto : toI32 ((x % 4294967296).toNat) = x := by
    have hnn : 0 ≤ x % 4294967296 := Int.emod_nonneg x (by norm_num)
    unfold toI32
    split <;> omega
  simp [hdec, hto]

theorem readVerts_append (vs : List Nat) (t : List Nat) (h : ∀ v ∈ vs, v < 2 ^ 64) :
    readVerts vs.length (vs.flatMap u64le ++ t) = some (vs, t) := by
  induction vs with
  | nil => simp [readVerts]
  | cons v vs ih =>
    have hv := h v (List.mem_cons_self v vs)
    simp only [List.length_cons, List.flatMap_cons, List.append_assoc, readVerts,
      readU64_append v _ hv, ih (fun w hw => h w (List.mem_cons_of_mem v hw))]

theorem readLabels_append (ls : List Int) (t : List Nat)
    (h : ∀ l ∈ ls, -2 ^ 31 ≤ l ∧ l < 2 ^ 31) :
    readLabels ls.length (ls.flatMap i32le ++ t) = some (ls, t) := by
  induction ls with
  | nil => simp [readLabels]
  | cons l ls ih =>
    obtain ⟨h1, h2⟩ := h l (List.mem_cons_self l ls)
    simp only [List.length_cons, List.flatMap_cons, List.append_assoc, readLabels,
      readI32_append l _ h1 h2, ih (fun x hx => h x (List.mem_cons_of_mem l hx))]

theorem readEdges_append (nv : Nat) (es : List (List Nat)) (t : List Nat)
    (h : ∀ e ∈ es, e ≠ [] ∧ e.length < 2 ^ 64 ∧ ∀ v ∈ e, v < nv)
    (hnv : nv ≤ 2 ^ 64) :
    readEdges nv es.length (es.flatMap (fun e => u64le e.length ++ e.flatMap u64le) ++ t)
      = .ok (es, t) := by
  induction es with
  | nil => simp [readEdges]
  | cons e es ih =>
    obtain ⟨hne, hlen, hvs⟩ := h e (List.mem_cons_self e es)
    have hsz : e.length ≠ 0 := by simpa using hne
    have hall : e.all (fun v => decide (v < nv)) = true := by
      simp only [List.all_eq_true, decide_eq_true_eq]; exact hvs
    simp only [List.length_cons, List.flatMap_cons, List.append_assoc, readEdges,
      readU64_append e.length _ hlen, if_neg hsz,
      readVerts_append e _ (fun v hv => lt_of_lt_of_le (hvs v hv) hnv),
      hall, if_true, ih (fun x hx => h x (List.mem_cons_of_mem e hx))]

theorem load_save_roundtrip (hg : Hypergraph) (h : ValidHG hg) :
    load_from_binary_stream (save_to_bytes hg) = .ok hg := by
  obtain ⟨hN1, hN64, hM64, hedges, hlablen, hlab⟩ := h
  have hmagic : HGR_ASCII < 2 ^ 32 := by norm_num [HGR_ASCII]
  have hv0 : hg.num_vertices ≠ 0 := by omega
  have hrl : readLabels hg.num_vertices (hg.labels.flatMap i32le) = some (hg.labels, []) := by
    rw [← hlablen]
    simpa using readLabels_append hg.labels [] hlab
  have hre : readEdges hg.num_vertices hg.hyperedges.length
      (hg.hyperedges.flatMap (fun e => u64le e.length ++ e.flatMap u64le)
        ++ ((1 : Nat) :: hg.labels.flatMap i32le))
      = .ok (hg.hyperedges, (1 : Nat) :: hg.labels.flatMap i32le) :=
    readEdges_append _ _ _ hedges hN64.le
  simp only [save_to_bytes, load_from_binary_stream, Hypergraph.num_edges,
    List.append_assoc, List.singleton_append,
    readU32_append _ _ hmagic, readU32_append 1 _ (by norm_num),
    readU64_append _ _ hN64, readU64_append _ _ hM64,
    hre, readU8_one, hrl, hv0,
    ne_eq, not_true_eq_false, or_self, if_false, ite_false, ite_true,
    one_ne_zero, not_false_eq_true, if_true]

/-! ### Truncated files -/

theorem take_append_ge (a b : List Nat) (j : Nat) (h : a.length ≤ j) :
    (a ++ b).take j = a ++ b.take (j - a.length) := by
  rw [List.take_append_eq_append_take, List.take_of_length_le h]

theorem readBytes_of_le (n : Nat) (s : List Nat) (h : n ≤ s.length) :
    readBytes n s = some (s.take n, s.drop n) := by
  unfold readBytes; rw [if_pos h]

theorem readU32_short (s : List Nat) (h : s.length < 4) : readU32 s = none := by
  simp [readU32, readBytes_short _ _ h]

theorem readU64_short (s : List Nat) (h : s.length < 8) : readU64 s = none := by
  simp [readU64, readBytes_short _ _ h]

theorem readU8_nil : readU8 [] = none := by
  simp [readU8, readBytes]

theorem readVerts_short (n : Nat) (s : List Nat) (h : s.length < 8 * n) :
    readVerts n s = none := by
  induction n generalizing s with
  | zero => omega
  | succ m ih =>
    by_cases h8 : s.length < 8
    · rw [readVerts, readU64_short s h8]
    · rw [readVerts]
      unfold readU64
      rw [readBytes_of_le 8 s (by omega)]
      have : (s.drop 8).length < 8 * m := by simp; omega
      simp [ih _ this]

theorem readLabels_short (n : Nat) (s : List Nat) (h : s.length < 4 * n) :
    readLabels n s = none := by
  induction n generalizing s with
  | zero => omega
  | succ m ih =>
    by_cases h4 : s.length < 4
    · rw [readLabels]
      unfold readI32
      rw [readBytes_short _ _ h4]
      rfl
    · rw [readLabels]
      unfold readI32
      rw [readBytes_of_le 4 s (by omega)]
      have : (s.drop 4).length < 4 * m := by simp; omega
      simp [ih _ this]

theorem length_flatMap_u64 (vs : List Nat) : (vs.flatMap u64le).length = 8 * vs.length := by
  induction vs with
  | nil => simp
  | cons v vs ih =>
    simp only [List.flatMap_cons, List.length_append, ih, List.length_cons]
    rw [show (u64le v).length = 8 from natLE_length 8 v]
    ring

theorem length_flatMap_i32 (ls : List Int) : (ls.flatMap i32le).length = 4 * ls.length := by
  induction ls with
  | nil => simp
  | cons l ls ih =>
    simp only [List.flatMap_cons, List.length_append, ih, List.length_cons]
    rw [show (i32le l).length = 4 from natLE_length 4 _]
    ring

/-- Truncating anywhere inside the edge records makes the edge loop
fail. -/
theorem readEdges_truncated (nv : Nat) (hnv : nv ≤ 2 ^ 64) :
    ∀ (es : List (List Nat)),
      (∀ e ∈ es, e ≠ [] ∧ e.length < 2 ^ 64 ∧ ∀ v ∈ e, v < nv) →
      ∀ j, j < (es.flatMap (fun e => u64le e.length ++ e.flatMap u64le)).length →
      ∃ msg, readEdges nv es.length
        ((es.flatMap (fun e => u64le e.length ++ e.flatMap u64le)).take j) = .error msg := by
  intro es
  induction es with
  | nil => intro _ j hj; simp at hj
  | cons e es ih =>
    intro h j hj
    obtain ⟨hne, hlen, hvs⟩ := h e (List.mem_cons_self e es)
    have h8 : (u64le e.length).length = 8 := natLE_length 8 _
    have hvlen : (e.flatMap u64le).length = 8 * e.length := length_flatMap_u64 e
    simp only [List.flatMap_cons, List.append_assoc, List.length_cons] at hj ⊢
    have hne0 : ¬ (e.length = 0) := by simpa using hne
    have hall : e.all (fun v => decide (v < nv)) = true := by
      simp only [List.all_eq_true, decide_eq_true_eq]; exact hvs
    by_cases hj8 : j < 8
    · -- cut inside the size field
      refine ⟨"Invalid hypergraph file (bad edge size)", ?_⟩
      have hshort : (List.take j (u64le e.length ++ (e.flatMap u64le
          ++ es.flatMap (fun e => u64le e.length ++ e.flatMap u64le)))).length < 8 := by
        simp only [List.length_take]
        omega
      simp only [readEdges, readU64_short _ hshort]
    · -- size field complete
      rw [take_append_ge _ _ j (by omega), h8]
      by_cases hjv : j - 8 < 8 * e.length
      · -- cut inside the vertex ids
        refine ⟨"Invalid hypergraph file (truncated vertices)", ?_⟩
        have hlt : ((e.flatMap u64le
            ++ es.flatMap (fun e => u64le e.length ++ e.flatMap u64le)).take (j - 8)).length
            < 8 * e.length := by
          simp [List.length_take]; omega
        simp only [readEdges, readU64_append e.length _ hlen, if_neg hne0,
          readVerts_short _ _ hlt]
      · -- first record complete, recurse
        rw [take_append_ge _ _ (j - 8) (by omega), hvlen]
        have hrec : j - 8 - 8 * e.length
            < (es.flatMap (fun e => u64le e.length ++ e.flatMap u64le)).length := by
          simp only [List.length_append, h8, hvlen] at hj
          omega
        obtain ⟨msg, hmsg⟩ := ih (fun x hx => h x (List.mem_cons_of_mem e hx)) _ hrec
        refine ⟨msg, ?_⟩
        simp only [readEdges, readU64_append e.length _ hlen, if_neg hne0,
          readVerts_append e _ (fun v hv => lt_of_lt_of_le (hvs v hv) hnv),
          hall, if_true, hmsg]

/-- The byte length of the header plus all edge records: the single
proper-prefix cut point the loader tolerates. -/
def headerEdgesLen (hg : Hypergraph) : Nat :=
  24 + (hg.hyperedges.flatMap (fun e => u64le e.length ++ e.flatMap u64le)).length

theorem save_length (hg : Hypergraph) (h : hg.labels.length = hg.num_vertices) :
    (save_to_bytes hg).length = headerEdgesLen hg + 1 + 4 * hg.num_vertices := by
  unfold save_to_bytes headerEdgesLen
  simp only [List.length_append, List.length_cons, length_flatMap_i32, h,
    u32le, u64le, natLE_length]
  omega

/-- Parsing a stream that starts with a well-formed header. -/
theorem load_header (nv ne : Nat) (hnv64 : nv < 2 ^ 64) (hne64 : ne < 2 ^ 64)
    (hnv0 : nv ≠ 0) (s : List Nat) :
    load_from_binary_stream (u32le HGR_ASCII ++ (u32le 1 ++ (u64le nv ++ (u64le ne ++ s))))
      = match readEdges nv ne s with
        | .error m => .error m
        | .ok (es, s5) =>
          match readU8 s5 with
          | none => .ok { num_vertices := nv, hyperedges := es,
                          labels := List.replicate nv 0 }
          | some (hl, s6) =>
            if hl ≠ 0 then
              match readLabels nv s6 with
              | none => .error "Invalid hypergraph file (truncated labels)"
              | some (ls, _) => .ok { num_vertices := nv, hyperedges := es, labels := ls }
            else .ok { num_vertices := nv, hyperedges := es,
                       labels := List.replicate nv 0 } := by
  simp only [load_from_binary_stream,
    readU32_append HGR_ASCII _ (by norm_num [HGR_ASCII]),
    readU32_append 1 _ (by norm_num),
    readU64_append nv _ hnv64, readU64_append ne _ hne64,
    ne_eq, not_true_eq_false, or_self, if_false, hnv0, ite_false]

/-- Truncation inside the 24-byte header is rejected. -/
theorem load_take_lt_header (hg : Hypergraph) (h : ValidHG hg)
    (k : Nat) (hk : k < 24) :
    ∃ msg, load_from_binary_stream ((save_to_bytes hg).take k) = .error msg := by
  obtain ⟨hN1, hN64, hM64, hedges, hlablen, hlab⟩ := h
  have hlen4 : (u32le HGR_ASCII).length = 4 := natLE_length 4 _
  have hlen4' : (u32le 1).length = 4 := natLE_length 4 _
  have hlen8 : (u64le hg.num_vertices).length = 8 := natLE_length 8 _
  by_cases h4 : k < 4
  · refine ⟨"Invalid hypergraph file (bad magic/version)", ?_⟩
    have hshort : ((save_to_bytes hg).take k).length < 4 := by
      simp only [List.length_take]; omega
    simp only [load_from_binary_stream, readU32_short _ hshort]
  · unfold save_to_bytes
    rw [take_append_ge _ _ k (by omega), hlen4]
    by_cases h8 : k < 8
    · refine ⟨"Invalid hypergraph file (bad magic/version)", ?_⟩
      have hshort : ((u32le 1 ++ (u64le hg.num_vertices ++ (u64le hg.num_edges
          ++ (hg.hyperedges.flatMap (fun e => u64le e.length ++ e.flatMap u64le)
          ++ ((1 : Nat) :: hg.labels.flatMap i32le))))).take (k - 4)).length < 4 := by
        simp only [List.length_take]; omega
      simp only [load_from_binary_stream,
        readU32_append HGR_ASCII _ (by norm_num [HGR_ASCII]),
        readU32_short _ hshort]
    · rw [take_append_ge _ _ (k - 4) (by omega), hlen4']
      by_cases h16 : k < 16
      · refine ⟨"Invalid hypergraph file (bad header)", ?_⟩
        have hshort : ((u64le hg.num_vertices ++ (u64le hg.num_edges
            ++ (hg.hyperedges.flatMap (fun e => u64le e.length ++ e.flatMap u64le)
            ++ ((1 : Nat) :: hg.labels.flatMap i32le)))).take (k - 4 - 4)).length < 8 := by
          simp only [List.length_take]; omega
        simp only [load_from_binary_stream,
          readU32_append HGR_ASCII _ (by norm_num [HGR_ASCII]),
          readU32_append 1 _ (by norm_num),
          ne_eq, not_true_eq_false, or_self, if_false,
          readU64_short _ hshort]
      · rw [take_append_ge _ _ (k - 4 - 4) (by omega), hlen8]
        refine ⟨"Invalid hypergraph file (bad header)", ?_⟩
        have hshort : ((u64le hg.num_edges
            ++ (hg.hyperedges.flatMap (fun e => u64le e.length ++ e.flatMap u64le)
            ++ ((1 : Nat) :: hg.labels.flatMap i32le))).take (k - 4 - 4 - 8)).length < 8 := by
          simp only [List.length_take]; omega
        simp only [load_from_binary_stream,
          readU32_append HGR_ASCII _ (by norm_num [HGR_ASCII]),
          readU32_append 1 _ (by norm_num),
          ne_eq, not_true_eq_false, or_self, if_false,
          readU64_append _ _ hN64,
          readU64_short _ hshort]

/-- Peeling the 24 header bytes off a ≥24-byte prefix of a saved file. -/
theorem take_save_peel (hg : Hypergraph) (k : Nat) (h24 : 24 ≤ k) :
    (save_to_bytes hg).take k
      = u32le HGR_ASCII ++ (u32le 1 ++ (u64le hg.num_vertices ++ (u64le hg.num_edges
        ++ ((hg.hyperedges.flatMap (fun e => u64le e.length ++ e.flatMap u64le)
            ++ ((1 : Nat) :: hg.labels.flatMap i32le)).take (k - 24))))) := by
  have ha : (u32le HGR_ASCII).length = 4 := natLE_length 4 _
  have hb : (u32le 1).length = 4 := natLE_length 4 _
  have hc : (u64le hg.num_vertices).length = 8 := natLE_length 8 _
  have hd : (u64le hg.num_edges).length = 8 := natLE_length 8 _
  unfold save_to_bytes
  rw [take_append_ge _ _ k (by rw [ha]; omega), ha]
  rw [take_append_ge _ _ (k - 4) (by rw [hb]; omega), hb]
  rw [take_append_ge _ _ (k - 4 - 4) (by rw [hc]; omega), hc]
  rw [take_append_ge _ _ (k - 4 - 4 - 8) (by rw [hd]; omega), hd]
  have : k - 4 - 4 - 8 - 8 = k - 24 := by omega
  rw [this]

/-- Truncation inside the edge records is rejected. -/
theorem load_take_in_edges (hg : Hypergraph) (h : ValidHG hg) (k : Nat)
    (hk24 : 24 ≤ k)
    (hk : k - 24 < (hg.hyperedges.flatMap (fun e => u64le e.length ++ e.flatMap u64le)).length) :
    ∃ msg, load_from_binary_stream ((save_to_bytes hg).take k) = .error msg := by
  obtain ⟨hN1, hN64, hM64, hedges, hlablen, hlab⟩ := h
  obtain ⟨msg, hmsg⟩ := readEdges_truncated hg.num_vertices hN64.le
    hg.hyperedges hedges (k - 24) hk
  refine ⟨msg, ?_⟩
  rw [take_save_peel hg k hk24]
  rw [List.take_append_eq_append_take, Nat.sub_eq_zero_of_le hk.le,
    List.take_zero, List.append_nil]
  rw [load_header hg.num_vertices hg.num_edges hN64 hM64 (by omega) _]
  simp only [Hypergraph.num_edges] at hmsg ⊢
  rw [hmsg]

/-- Cutting the file exactly before the `has_labels` byte is ACCEPTED:
the loader hits end-of-stream on the flag read and returns the
hypergraph with default labels. -/
theorem load_take_boundary (hg : Hypergraph) (h : ValidHG hg) :
    load_from_binary_stream ((save_to_bytes hg).take (headerEdgesLen hg))
      = .ok { num_vertices := hg.num_vertices, hyperedges := hg.hyperedges,
              labels := List.replicate hg.num_vertices 0 } := by
  obtain ⟨hN1, hN64, hM64, hedges, hlablen, hlab⟩ := h
  have hre : readEdges hg.num_vertices hg.hyperedges.length
      (hg.hyperedges.flatMap (fun e => u64le e.length ++ e.flatMap u64le))
      = .ok (hg.hyperedges, []) := by
    have := readEdges_append hg.num_vertices hg.hyperedges [] hedges hN64.le
    simpa using this
  rw [take_save_peel hg _ (by unfold headerEdgesLen; omega)]
  have hsub : headerEdgesLen hg - 24
      = (hg.hyperedges.flatMap (fun e => u64le e.length ++ e.flatMap u64le)).length := by
    unfold headerEdgesLen; omega
  rw [hsub, List.take_append_eq_append_take, List.take_of_length_le (le_refl _),
    Nat.sub_self, List.take_zero, List.append_nil]
  rw [load_header hg.num_vertices hg.num_edges hN64 hM64 (by omega) _]
  simp only [Hypergraph.num_edges, hre, readU8_nil]

/-- Truncation after the `has_labels` flag but before the last label
byte is rejected. -/
theorem load_take_in_labels (hg : Hypergraph) (h : ValidHG hg) (k : Nat)
    (hlow : headerEdgesLen hg < k) (hhigh : k < (save_to_bytes hg).length) :
    load_from_binary_stream ((save_to_bytes hg).take k)
      = .error "Invalid hypergraph file (truncated labels)" := by
  obtain ⟨hN1, hN64, hM64, hedges, hlablen, hlab⟩ := h
  have hEBlen := headerEdgesLen hg
  have hsl := save_length hg hlablen
  have hlb : (hg.labels.flatMap i32le).length = 4 * hg.num_vertices := by
    rw [length_flatMap_i32, hlablen]
  have h24 : 24 ≤ k := by unfold headerEdgesLen at hlow; omega
  rw [take_save_peel hg k h24]
  have hEB : (hg.hyperedges.flatMap (fun e => u64le e.length ++ e.flatMap u64le)).length
      = headerEdgesLen hg - 24 := by
    unfold headerEdgesLen; omega
  rw [List.take_append_eq_append_take,
    List.take_of_length_le (by rw [hEB]; omega)]
  have hstep : k - 24
      - (hg.hyperedges.flatMap (fun e => u64le e.length ++ e.flatMap u64le)).length
      = (k - headerEdgesLen hg - 1) + 1 := by
    rw [hEB]; unfold headerEdgesLen at hlow ⊢; omega
  rw [hstep, List.take_succ_cons]
  have hre : readEdges hg.num_vertices hg.hyperedges.length
      (hg.hyperedges.flatMap (fun e => u64le e.length ++ e.flatMap u64le)
        ++ ((1 : Nat) :: (hg.labels.flatMap i32le).take (k - headerEdgesLen hg - 1)))
      = .ok (hg.hyperedges,
          (1 : Nat) :: (hg.labels.flatMap i32le).take (k - headerEdgesLen hg - 1)) :=
    readEdges_append _ _ _ hedges hN64.le
  have hshort : ((hg.labels.flatMap i32le).take (k - headerEdgesLen hg - 1)).length
      < 4 * hg.num_vertices := by
    rw [List.length_take, hlb]
    omega
  rw [load_header hg.num_vertices hg.num_edges hN64 hM64 (by omega) _]
  simp only [Hypergraph.num_edges, hre, readU8_one, ne_eq, one_ne_zero,
    not_false_eq_true, if_true, ite_true, readLabels_short _ _ hshort]

/-- A stream whose first eight bytes encode a wrong magic or version is
rejected. -/
theorem load_bad_magic (m v : Nat) (rest : List Nat) (hm : m < 2 ^ 32) (hv : v < 2 ^ 32)
    (hbad : m ≠ HGR_ASCII ∨ v ≠ 1) :
    load_from_binary_stream (u32le m ++ (u32le v ++ rest))
      = .error "Invalid hypergraph file (bad magic/version)" := by
  simp only [load_from_binary_stream, readU32_append m _ hm, readU32_append v _ hv]
  rw [if_pos hbad]

/-! ### Helper facts about the iteration -/

theorem getD_map_range {α : Type} (f : Nat → α) (n v : Nat) (d : α) (hv : v < n) :
    ((List.range n).map f).getD v d = f v := by
  rw [List.getD_eq_getElem _ _ (by simpa using hv), List.getElem_map,
    List.getElem_range]

/-- The flat view hands each Phase-1 kernel exactly the edge's vertex
list. -/
theorem edgeSlice_eq (hg : Hypergraph) (e : Nat) (he : e < hg.num_edges) :
    csrSlice hg.flatten.edge_vertices hg.flatten.edge_offsets e = hg.hyperedge e := by
  unfold Hypergraph.flatten Hypergraph.hyperedge
  exact csrSlice_flatten hg.hyperedges e he

/-- The flat view hands each Phase-2 kernel exactly the vertex's
incidence list. -/
theorem vertexSlice_eq (hg : Hypergraph) (v : Nat) (hv : v < hg.num_vertices) :
    csrSlice hg.flatten.vertex_edges hg.flatten.vertex_offsets v = hg.incident_edges v := by
  unfold Hypergraph.flatten
  rw [csrSlice_flatten _ v (by simpa using hv)]
  exact getD_map_range _ _ _ _ hv

theorem tally_nil (maxL lab : Nat) : tally [] maxL lab = 0 := rfl

theorem tally_out_of_range (obs : List Int) (maxL : Nat)
    (h : ∀ l ∈ obs, l < 0 ∨ (maxL : Int) ≤ l) (lab : Nat) : tally obs maxL lab = 0 := by
  unfold tally
  rw [List.countP_eq_zero]
  intro l hl
  rcases h l hl with hneg | hge <;> simp <;> intro h1 h2 <;> omega

theorem updateLabel_all_zero (obs : List Int) (maxL : Nat) (inc : Int)
    (h : 1 ≤ maxL) (hz : ∀ lab, tally obs maxL lab = 0) :
    updateLabel obs maxL inc = 0 := by
  apply bestLabel_eq_of_isLeastArgmax inc h
  exact ⟨h, fun j _ => by rw [hz j, hz 0], fun j hj => absurd hj (Nat.not_lt_zero j)⟩

/-- A 2-vertex hypergraph whose vertex 1 is isolated with label 1. -/
def exC1 : Hypergraph := { num_vertices := 2, hyperedges := [[0]], labels := [0, 1] }

/-! ### Claim theorems -/

/-- **C1 (amended).** Phase 2 does NOT keep a degree-0 vertex's label:
the all-zero histogram's argmax (seeded at weight `-1`, so `0 > -1`
fires at label 0) writes label 0 to every degree-0 vertex in every
iteration; the initial label is retained only when it is already 0. -/
theorem C1_degree_zero_vertex_becomes_zero (hg : Hypergraph) (maxL : Nat)
    (vl el : List Int) (v : Nat) (hmaxL : 1 ≤ maxL) (hv : v < hg.num_vertices)
    (hdeg : hg.degreeOf v = 0) :
    (iterOnce hg maxL vl el).vertex_labels.getD v 0 = 0 := by
  unfold iterOnce
  dsimp only
  rw [getD_map_range _ _ _ _ (show v < hg.flatten.num_vertices from hv)]
  unfold phase2vertex
  rw [vertexSlice_eq hg v hv]
  have hemp : hg.incident_edges v = [] := List.length_eq_zero.mp hdeg
  rw [hemp]
  simp only [List.map_nil]
  exact updateLabel_all_zero _ _ _ hmaxL (fun lab => tally_nil _ _)

/-- **C1 (witness).** -/
theorem C1_witness :
    (1 ≤ 2 ∧ 1 < exC1.num_vertices ∧ exC1.degreeOf 1 = 0) ∧
    (iterOnce exC1 2 [0, 1] [0]).vertex_labels.getD 1 0 = 0 :=
  ⟨by decide, C1_degree_zero_vertex_becomes_zero exC1 2 [0, 1] [0] 1
    (by decide) (by decide) (by decide)⟩

/-- **C1 (counterexample).** Vertex 1 of `exC1` has degree 0 and
initial label 1, yet a full run (`max_labels = 2`, one iteration)
leaves it with label 0: Phase 2 does change the label of a degree-0
vertex. -/
theorem C1_counterexample :
    exC1.degreeOf 1 = 0 ∧ exC1.labels.getD 1 0 = 1 ∧
    ((runLP exC1 2 0 1).1).1.getD 1 0 = 0 := by
  refine ⟨by decide, by decide, ?_⟩
  unfold runLP
  rw [if_neg (by decide)]
  unfold driverGo
  by_cases h : Converges exC1 2 0 (exC1.labels, List.replicate exC1.num_edges 0)
  · rw [if_pos h]; decide
  · rw [if_neg h]; unfold driverGo; decide

/-- **C2 (amended).** The argmax loop is seeded with the incumbent at
weight `-1.0`, but `counts[0] ≥ 0 > -1` always fires at label 0, so the
seed never survives: the selected label is the least label of
`[0, max_labels)` with maximal count, for EVERY incumbent; when every
observed label is out of range the result is label 0 (not the
incumbent).  Out-of-range labels are ignored in the tally. -/
theorem C2_argmax_independent_of_incumbent (obs : List Int) (maxL : Nat) (inc : Int)
    (hmaxL : 1 ≤ maxL) :
    (∃ b : Nat, IsLeastArgmax (tally obs maxL) maxL b ∧
      ∀ inc' : Int, updateLabel obs maxL inc' = (b : Int)) ∧
    ((∀ l ∈ obs, l < 0 ∨ (maxL : Int) ≤ l) → updateLabel obs maxL inc = 0) := by
  constructor
  · obtain ⟨b, hb, _⟩ := bestLabel_spec (tally obs maxL) maxL inc hmaxL
    exact ⟨b, hb, fun inc' => bestLabel_eq_of_isLeastArgmax inc' hmaxL hb⟩
  · intro h
    exact updateLabel_all_zero _ _ _ hmaxL (tally_out_of_range obs maxL h)

/-- **C2 (witness).** -/
theorem C2_witness :
    (1 ≤ 2) ∧
    ((∃ b : Nat, IsLeastArgmax (tally [0, 0, 1] 2) 2 b ∧
        ∀ inc' : Int, updateLabel [0, 0, 1] 2 inc' = (b : Int)) ∧
      ((∀ l ∈ [(0 : Int), 0, 1], l < 0 ∨ (2 : Int) ≤ l) →
        updateLabel [0, 0, 1] 2 7 = 0)) :=
  ⟨by decide, C2_argmax_independent_of_incumbent [0, 0, 1] 2 7 (by decide)⟩

/-- **C2 (counterexample).** With observed labels `[0, 1]` and
`max_labels = 2`, the incumbent 1's count (1) ties the maximum, yet the
result is 0, not the incumbent; and with the single observed label 5
out of range for `max_labels = 1`, the incumbent 1 is NOT kept: the
result is 0. -/
theorem C2_counterexample :
    (tally [0, 1] 2 1 = 1 ∧ (∀ j < 2, tally [0, 1] 2 j ≤ 1) ∧
      updateLabel [0, 1] 2 1 = 0) ∧
    ((∀ l ∈ [(5 : Int)], l < 0 ∨ (1 : Int) ≤ l) ∧ updateLabel [5] 1 1 = 0) := by
  decide

/-- **C3.** When two distinct labels tie at the maximum histogram
count, the per-entity update selects the lowest-numbered of the tying
labels (the left-to-right scan with strict `>`). -/
theorem C3_tie_break_lowest (obs : List Int) (maxL : Nat) (inc : Int) (l1 l2 : Nat)
    (hmaxL : 1 ≤ maxL) (hl1 : l1 < maxL) (hl2 : l2 < maxL) (hne : l1 ≠ l2)
    (htie : tally obs maxL l1 = tally obs maxL l2)
    (hmax : ∀ j < maxL, tally obs maxL j ≤ tally obs maxL l1) :
    ∃ b : Nat, updateLabel obs maxL inc = (b : Int) ∧ b ≤ l1 ∧ b ≤ l2 ∧
      tally obs maxL b = tally obs maxL l1 ∧
      ∀ j < maxL, tally obs maxL j = tally obs maxL l1 → b ≤ j := by
  obtain ⟨b, ⟨hb, hball, hbstrict⟩, heq⟩ := bestLabel_spec (tally obs maxL) maxL inc hmaxL
  have hbcount : tally obs maxL b = tally obs maxL l1 :=
    le_antisymm (hmax b hb) (hball l1 hl1)
  have hminimal : ∀ j < maxL, tally obs maxL j = tally obs maxL l1 → b ≤ j := by
    intro j hj hjc
    by_contra hbj
    push_neg at hbj
    have := hbstrict j hbj
    omega
  exact ⟨b, heq, hminimal l1 hl1 rfl, hminimal l2 hl2 htie.symm, hbcount, hminimal⟩

/-- **C3 (witness).** -/
theorem C3_witness :
    (1 ≤ 3 ∧ 0 < 3 ∧ 2 < 3 ∧ (0 : Nat) ≠ 2 ∧
      tally [0, 2, 2, 0, 1] 3 0 = tally [0, 2, 2, 0, 1] 3 2 ∧
      ∀ j < 3, tally [0, 2, 2, 0, 1] 3 j ≤ tally [0, 2, 2, 0, 1] 3 0) ∧
    ∃ b : Nat, updateLabel [0, 2, 2, 0, 1] 3 1 = (b : Int) ∧ b ≤ 0 ∧ b ≤ 2 ∧
      tally [0, 2, 2, 0, 1] 3 b = tally [0, 2, 2, 0, 1] 3 0 ∧
      ∀ j < 3, tally [0, 2, 2, 0, 1] 3 j = tally [0, 2, 2, 0, 1] 3 0 → b ≤ j :=
  ⟨by decide, C3_tie_break_lowest [0, 2, 2, 0, 1] 3 1 0 2
    (by decide) (by decide) (by decide) (by decide) (by decide) (by decide)⟩

/-- **C10.** With `max_labels ≥ 1`, after one full iteration every edge
label and every vertex label lies in `[0, max_labels)`, whatever the
incoming labels were: the scan starts from weight `-1.0` and
`counts[0] ≥ 0 > -1`, so some in-range index is always written. -/
theorem C10_labels_in_range (hg : Hypergraph) (maxL : Nat) (vl el : List Int)
    (hmaxL : 1 ≤ maxL) :
    (∀ x ∈ (iterOnce hg maxL vl el).edge_labels, 0 ≤ x ∧ x < (maxL : Int)) ∧
    (∀ x ∈ (iterOnce hg maxL vl el).vertex_labels, 0 ≤ x ∧ x < (maxL : Int)) := by
  have hup : ∀ (obs : List Int) (inc : Int),
      0 ≤ updateLabel obs maxL inc ∧ updateLabel obs maxL inc < (maxL : Int) := by
    intro obs inc
    obtain ⟨b, ⟨hb, _, _⟩, heq⟩ := bestLabel_spec (tally obs maxL) maxL inc hmaxL
    rw [show updateLabel obs maxL inc = bestLabel (tally obs maxL) maxL inc from rfl, heq]
    exact ⟨Int.natCast_nonneg b, by exact_mod_cast hb⟩
  constructor <;> intro x hx
  · unfold iterOnce at hx
    dsimp only at hx
    obtain ⟨e, _, rfl⟩ := List.mem_map.mp hx
    exact hup _ _
  · unfold iterOnce at hx
    dsimp only at hx
    obtain ⟨v, _, rfl⟩ := List.mem_map.mp hx
    exact hup _ _

/-- **C10 (witness).** -/
theorem C10_witness :
    (1 ≤ 2) ∧
    ((∀ x ∈ (iterOnce exC1 2 [5, -3] [9]).edge_labels, 0 ≤ x ∧ x < (2 : Int)) ∧
      (∀ x ∈ (iterOnce exC1 2 [5, -3] [9]).vertex_labels, 0 ≤ x ∧ x < (2 : Int))) :=
  ⟨by decide, C10_labels_in_range exC1 2 [5, -3] [9] (by decide)⟩

/-- **C4.** On a non-empty hypergraph the driver performs iterations
until `change_count / N < tolerance` (strict `<`) or `max_iterations`
iterations are done; the returned count is exactly the number of
iterations executed: the index of the first converging iteration plus
one, or `max_iterations` when none converges earlier. -/
theorem C4_convergence_rule (hg : Hypergraph) (maxL : Nat) (tol : ℚ) (maxIter : Nat)
    (hN : hg.num_vertices ≠ 0) (hM : hg.num_edges ≠ 0) :
    (∀ k < maxIter,
        Converges hg maxL tol
          (stateAt hg maxL (hg.labels, List.replicate hg.num_edges 0) k) →
        (∀ j < k, ¬ Converges hg maxL tol
          (stateAt hg maxL (hg.labels, List.replicate hg.num_edges 0) j)) →
        runLP hg maxL tol maxIter
          = (stateAt hg maxL (hg.labels, List.replicate hg.num_edges 0) (k + 1), k + 1)) ∧
    ((∀ k < maxIter, ¬ Converges hg maxL tol
          (stateAt hg maxL (hg.labels, List.replicate hg.num_edges 0) k)) →
      runLP hg maxL tol maxIter
        = (stateAt hg maxL (hg.labels, List.replicate hg.num_edges 0) maxIter, maxIter)) := by
  constructor
  · intro k hk hconv hleast
    unfold runLP
    rw [if_neg (by push_neg; exact ⟨hN, hM⟩)]
    rw [driverGo_converged hg maxL tol maxIter _ 0 k hk hconv hleast]
    simp
  · intro hnone
    unfold runLP
    rw [if_neg (by push_neg; exact ⟨hN, hM⟩)]
    rw [driverGo_exhausted hg maxL tol maxIter _ 0 hnone]
    simp

/-- **C4 (witness).** -/
theorem C4_witness :
    (exC1.num_vertices ≠ 0 ∧ exC1.num_edges ≠ 0 ∧
      ∀ k < 1, ¬ Converges exC1 2 0
        (stateAt exC1 2 (exC1.labels, List.replicate exC1.num_edges 0) k)) ∧
    runLP exC1 2 0 1
      = (stateAt exC1 2 (exC1.labels, List.replicate exC1.num_edges 0) 1, 1) := by
  have hnone : ∀ k < 1, ¬ Converges exC1 2 0
      (stateAt exC1 2 (exC1.labels, List.replicate exC1.num_edges 0) k) := by
    intro k _
    unfold Converges
    exact not_lt.mpr (by positivity)
  exact ⟨⟨by decide, by decide, hnone⟩,
    (C4_convergence_rule exC1 2 0 1 (by decide) (by decide)).2 hnone⟩

/-- **C5.** For every hypergraph reachable through the builder or a
generator, loading the saved byte stream returns an equal hypergraph:
same vertex count, same edge sequence (order and in-edge vertex order
included), same labels. -/
theorem C5_save_load_roundtrip (hg : Hypergraph) (h : ValidHG hg) :
    load_from_binary_stream (save_to_bytes hg) = .ok hg :=
  load_save_roundtrip hg h

/-- A small builder-reachable hypergraph. -/
def exHG : Hypergraph :=
  { num_vertices := 3, hyperedges := [[0, 1], [1, 2]], labels := [1, 0, 2] }

/-- **C5 (witness).** -/
theorem C5_witness :
    ValidHG exHG ∧ load_from_binary_stream (save_to_bytes exHG) = .ok exHG :=
  ⟨by decide, C5_save_load_roundtrip exHG (by decide)⟩

/-- **C6 (amended).** The SYCL planner's three pools per entity kind
are a disjoint cover with the stated thresholds (edges: 256 and 32,
vertices: 1024 and 256).  The OpenMP planner, however, has only TWO
pools per entity kind: edges split at 256 (its work-item pool holds
every edge of size ≤ 256, not ≤ 32, and there is no sub-group pool),
vertices split at 1024. -/
theorem C6_pools_partition (hg : Hypergraph) (i : Nat) :
    (i ∈ (create_execution_pool_sycl hg).wg_pool_edges
      ↔ i < hg.num_edges ∧ 256 < (hg.hyperedge i).length) ∧
    (i ∈ (create_execution_pool_sycl hg).sg_pool_edges
      ↔ i < hg.num_edges ∧ 32 < (hg.hyperedge i).length ∧ (hg.hyperedge i).length ≤ 256) ∧
    (i ∈ (create_execution_pool_sycl hg).wi_pool_edges
      ↔ i < hg.num_edges ∧ (hg.hyperedge i).length ≤ 32) ∧
    (i ∈ (create_execution_pool_sycl hg).wg_pool_vertices
      ↔ i < hg.num_vertices ∧ 1024 < hg.degreeOf i) ∧
    (i ∈ (create_execution_pool_sycl hg).sg_pool_vertices
      ↔ i < hg.num_vertices ∧ 256 < hg.degreeOf i ∧ hg.degreeOf i ≤ 1024) ∧
    (i ∈ (create_execution_pool_sycl hg).wi_pool_vertices
      ↔ i < hg.num_vertices ∧ hg.degreeOf i ≤ 256) ∧
    (i ∈ (create_execution_pool_openmp hg).wg_pool_edges
      ↔ i < hg.num_edges ∧ 256 < (hg.hyperedge i).length) ∧
    (i ∈ (create_execution_pool_openmp hg).wi_pool_edges
      ↔ i < hg.num_edges ∧ (hg.hyperedge i).length ≤ 256) ∧
    (i ∈ (create_execution_pool_openmp hg).wg_pool_vertices
      ↔ i < hg.num_vertices ∧ 1024 < hg.degreeOf i) ∧
    (i ∈ (create_execution_pool_openmp hg).wi_pool_vertices
      ↔ i < hg.num_vertices ∧ hg.degreeOf i ≤ 1024) := by
  refine ⟨?_, ?_, ?_, ?_, ?_, ?_, ?_, ?_, ?_, ?_⟩ <;>
    simp only [create_execution_pool_sycl, create_execution_pool_openmp,
      Hypergraph.degreeOf, List.mem_filter, List.mem_range, decide_eq_true_eq] <;>
    constructor <;> (intro h; exact ⟨h.1, by omega⟩)

/-- A hypergraph with one edge of size 100. -/
def exC6 : Hypergraph :=
  { num_vertices := 100, hyperedges := [List.range 100],
    labels := List.replicate 100 0 }

/-- **C6 (counterexample).** The OpenMP planner (a cited source of the
claim) puts the size-100 edge in its work-item pool although
`100 > 32`, and has no sub-group pool at all, so "e is in the work-item
pool iff `|e| ≤ 32`" fails on it. -/
theorem C6_counterexample :
    (exC6.hyperedge 0).length = 100 ∧
    ¬ (exC6.hyperedge 0).length ≤ 32 ∧
    (create_execution_pool_openmp exC6).wi_pool_edges = [0] := by decide

/-- **C7 (amended).** Binary load rejects a wrong magic or a version
`≠ 1`, and rejects truncation at every point of the format EXCEPT one:
a file cut exactly before the `has_labels` flag is accepted, with the
labels defaulting to 0 (the loader's forward-compatibility branch
tolerates end-of-stream on that read).  So not every truncated file is
rejected. -/
theorem C7_truncation (hg : Hypergraph) (h : ValidHG hg) :
    (∀ m v rest, m < 2 ^ 32 → v < 2 ^ 32 → m ≠ HGR_ASCII ∨ v ≠ 1 →
      load_from_binary_stream (u32le m ++ (u32le v ++ rest))
        = .error "Invalid hypergraph file (bad magic/version)") ∧
    (∀ k, k < (save_to_bytes hg).length → k ≠ headerEdgesLen hg →
      ∃ msg, load_from_binary_stream ((save_to_bytes hg).take k) = .error msg) ∧
    load_from_binary_stream ((save_to_bytes hg).take (headerEdgesLen hg))
      = .ok { num_vertices := hg.num_vertices, hyperedges := hg.hyperedges,
              labels := List.replicate hg.num_vertices 0 } := by
  refine ⟨fun m v rest hm hv hbad => load_bad_magic m v rest hm hv hbad, ?_,
    load_take_boundary hg h⟩
  intro k hk hne
  by_cases h24 : k < 24
  · exact load_take_lt_header hg h k h24
  · by_cases hin : k - 24
        < (hg.hyperedges.flatMap (fun e => u64le e.length ++ e.flatMap u64le)).length
    · exact load_take_in_edges hg h k (by omega) hin
    · have hgt : headerEdgesLen hg < k := by
        unfold headerEdgesLen at hne ⊢; omega
      exact ⟨_, load_take_in_labels hg h k hgt hk⟩

/-- A one-vertex, zero-edge hypergraph with label 7. -/
def exC7 : Hypergraph := { num_vertices := 1, hyperedges := [], labels := [7] }

/-- **C7 (witness).** -/
theorem C7_witness :
    ValidHG exC7 ∧
    load_from_binary_stream ((save_to_bytes exC7).take (headerEdgesLen exC7))
      = .ok { num_vertices := exC7.num_vertices, hyperedges := exC7.hyperedges,
              labels := List.replicate exC7.num_vertices 0 } :=
  ⟨by decide, (C7_truncation exC7 (by decide)).2.2⟩

/-- **C7 (counterexample).** The saved file of `exC7` is 29 bytes; its
24-byte prefix (truncated at the `has_labels` flag) is ACCEPTED by the
loader, returning the hypergraph with default label 0 — refuting "no
truncated file is accepted". -/
theorem C7_counterexample :
    24 < (save_to_bytes exC7).length ∧
    load_from_binary_stream ((save_to_bytes exC7).take 24)
      = .ok { num_vertices := 1, hyperedges := [], labels := [0] } := by decide

/-- **C8 (amended).** `add_hyperedge` rejects an empty vertex list and
any out-of-range id with an invalid-argument error, leaving the
hypergraph unchanged; it performs NO duplicate check: a non-empty
in-range list, duplicates included, is always accepted and appended. -/
theorem C8_no_duplicate_check (hg : Hypergraph) (vs : List Nat) :
    (add_hyperedge hg [] = .error "Hyperedge cannot be empty") ∧
    (vs ≠ [] → (∃ v ∈ vs, hg.num_vertices ≤ v) →
      add_hyperedge hg vs = .error "Vertex ID out of range") ∧
    (vs ≠ [] → (∀ v ∈ vs, v < hg.num_vertices) →
      add_hyperedge hg vs = .ok { hg with hyperedges := hg.hyperedges ++ [vs] }) := by
  refine ⟨rfl, ?_, ?_⟩
  · intro hne hex
    unfold add_hyperedge
    rw [if_neg (by simpa using hne)]
    rw [if_neg ?_]
    simp only [List.all_eq_true, decide_eq_true_eq]
    push_neg
    obtain ⟨v, hv, hge⟩ := hex
    exact ⟨v, hv, by omega⟩
  · intro hne hall
    unfold add_hyperedge
    rw [if_neg (by simpa using hne)]
    rw [if_pos (by simp only [List.all_eq_true, decide_eq_true_eq]; exact hall)]

/-- **C8 (witness).** The duplicate list `[0, 0]` is accepted. -/
theorem C8_witness :
    (([0, 0] : List Nat) ≠ [] ∧ ∀ v ∈ [(0 : Nat), 0], v < (Hypergraph.init 1).num_vertices) ∧
    add_hyperedge (Hypergraph.init 1) [0, 0]
      = .ok { Hypergraph.init 1 with
              hyperedges := (Hypergraph.init 1).hyperedges ++ [[0, 0]] } :=
  ⟨⟨by decide, by decide⟩,
    (C8_no_duplicate_check (Hypergraph.init 1) [0, 0]).2.2 (by decide) (by decide)⟩

/-- **C8 (counterexample).** `add_hyperedge` on the duplicate list
`[0, 0]` returns success and appends the edge — it is not rejected and
the hypergraph is modified. -/
theorem C8_counterexample :
    add_hyperedge (Hypergraph.init 1) [0, 0]
      = .ok { num_vertices := 1, hyperedges := [[0, 0]], labels := [0] } := by decide

/-- **C9 (amended).** `freeze` builds and caches the flat view and a
second call has no further effect; but a frozen store is NOT protected:
`add_hyperedge` still succeeds on it (there is no frozen check),
mutating the edge list while the stale cached flat view stays in
place. -/
theorem C9_freeze_idempotent_but_mutable (s : HypergraphStore) (vs : List Nat) :
    (freeze (freeze s) = freeze s) ∧
    ((freeze s).flat_cache = some s.flatten_m) ∧
    (vs ≠ [] → (∀ v ∈ vs, v < (freeze s).core.num_vertices) →
      add_hyperedge_s (freeze s) vs
        = .ok { core := { (freeze s).core with
                  hyperedges := (freeze s).core.hyperedges ++ [vs] },
                flat_cache := some s.flatten_m }) := by
  refine ⟨?_, rfl, ?_⟩
  · unfold freeze HypergraphStore.flatten_m
    simp
  · intro hne hall
    unfold add_hyperedge_s add_hyperedge
    rw [if_neg (by simpa using hne)]
    rw [if_pos (by simp only [List.all_eq_true, decide_eq_true_eq]; exact hall)]
    rfl

/-- **C9 (witness).** -/
theorem C9_witness :
    (([0] : List Nat) ≠ [] ∧
      ∀ v ∈ [(0 : Nat)],
        v < (freeze (HypergraphStore.ofCore (Hypergraph.init 1))).core.num_vertices) ∧
    add_hyperedge_s (freeze (HypergraphStore.ofCore (Hypergraph.init 1))) [0]
      = .ok { core := { (freeze (HypergraphStore.ofCore (Hypergraph.init 1))).core with
                hyperedges := (freeze (HypergraphStore.ofCore
                  (Hypergraph.init 1))).core.hyperedges ++ [[0]] },
              flat_cache := some (HypergraphStore.ofCore (Hypergraph.init 1)).flatten_m } :=
  ⟨⟨by decide, by decide⟩,
    (C9_freeze_idempotent_but_mutable (HypergraphStore.ofCore (Hypergraph.init 1))
      [0]).2.2 (by decide) (by decide)⟩

/-- **C9 (counterexample).** After `freeze`, `add_hyperedge` SUCCEEDS
and the store is changed — structural mutation is not disallowed. -/
theorem C9_counterexample :
    (add_hyperedge_s (freeze (HypergraphStore.ofCore (Hypergraph.init 1))) [0]).isOk = true ∧
    add_hyperedge_s (freeze (HypergraphStore.ofCore (Hypergraph.init 1))) [0]
      ≠ .ok (freeze (HypergraphStore.ofCore (Hypergraph.init 1))) := by decide

end HGLP
